import Mathlib

/-
Verification of the code-review assistant detection engine
(src/review_logic.py) against its natural-language specification.

The whole of review_logic.py is shallowly embedded here:
  - a Finding is the dict appended to self.issues_found buckets;
  - the three regex detectors are embedded as explicit scanners with the
    exact semantics of the compiled Python patterns (leftmost match,
    non-overlapping finditer scanning, greedy or lazy repetition as in
    the source pattern);
  - ast.parse is an external collaborator and is passed in as an oracle
    producing either a tree (a list of top-level nodes) or a syntax-error
    record; tree nodes model exactly the shape the code observes
    (isinstance checks for FunctionDef, ClassDef, For; everything else is
    an opaque node with children), and ast.walk is breadth-first;
  - analyze_file threads the instance state self.issues_found explicitly
    and models the file read as an Option argument;
  - generate_review and load_template model the template provider as a
    function returning Option String (none = FileNotFoundError).
-/

namespace CodeReview

/-- A single reported issue: the dict the Python code appends to a bucket
of self.issues_found, with fields type, message, line, severity. -/
structure Finding where
  ftype : String
  message : String
  line : Nat
  severity : String
deriving DecidableEq

/-- The category-partitioned collection self.issues_found. -/
structure Issues where
  general : List Finding
  security : List Finding
  performance : List Finding
deriving DecidableEq

def emptyIssues : Issues := ⟨[], [], []⟩

/-! ### Characters and character classes -/

def lbrace : Char := Char.ofNat 123
def squote : Char := Char.ofNat 39
def dquote : Char := Char.ofNat 34

/-- Python regex \s on ASCII input: space, tab, newline, carriage return,
vertical tab, form feed. -/
def isPySpace (c : Char) : Bool :=
  c == ' ' || c == '\t' || c == '\n' || c == '\r' || c == '\x0b' || c == '\x0c'

/-- Python regex \w on ASCII input (used for the word boundary \b). -/
def isWordChar (c : Char) : Bool :=
  c.isAlpha || c.isDigit || c == '_'

/-- Number of newline characters in a list of characters; the Python code
computes line numbers as code[:start].count(newline) + 1. -/
def countNL (l : List Char) : Nat := l.count '\n'

/-! ### Pattern building blocks -/

/-- Greedy \s* : length of the maximal whitespace run and the remainder. -/
def spanSpace : List Char → Nat × List Char
  | [] => (0, [])
  | c :: r =>
    if isPySpace c then
      let p := spanSpace r
      (p.1 + 1, p.2)
    else (0, c :: r)

/-- Case-sensitive: does the pattern lead (is it a prefix of) the text? -/
def leadsCS : List Char → List Char → Bool
  | [], _ => true
  | _ :: _, [] => false
  | p :: ps, t :: ts => (p == t) && leadsCS ps ts

/-- Case-insensitive prefix test, as re.IGNORECASE compares letters. -/
def ciLeads : List Char → List Char → Bool
  | [], _ => true
  | _ :: _, [] => false
  | p :: ps, t :: ts => (p.toLower == t.toLower) && ciLeads ps ts

/-- The text chunk matches the keyword up to ASCII case. -/
def ciMatches (a b : List Char) : Prop :=
  a.map Char.toLower = b.map Char.toLower

instance (a b : List Char) : Decidable (ciMatches a b) := by
  unfold ciMatches; infer_instance

/-- Try an alternation of keywords case-insensitively (first alternative
that matches wins, as in a Python regex alternation); returns the length
consumed and the remainder. -/
def stripKeywordCI : List (List Char) → List Char → Option (Nat × List Char)
  | [], _ => none
  | k :: ks, text =>
    if ciLeads k text then some (k.length, text.drop k.length)
    else stripKeywordCI ks text

/-- Case-sensitive variant for the commented-code alternation. -/
def stripKeywordCS : List (List Char) → List Char → Option (Nat × List Char)
  | [], _ => none
  | k :: ks, text =>
    if leadsCS k text then some (k.length, text.drop k.length)
    else stripKeywordCS ks text

/-- Lazy .*?  followed by a literal interpolation brace: index of the first
brace, failing if a newline (which . does not match) or the end of input
comes first. -/
def findBrace : List Char → Option Nat
  | [] => none
  | c :: r =>
    if c = lbrace then some 0
    else if c = '\n' then none
    else (findBrace r).map (· + 1)

/-- Claim-side variant (used only to state claim C3 as written): the brace
must occur before the literal closes, i.e. before the next occurrence of
the opening quote q. -/
def findBraceSpec (q : Char) : List Char → Option Nat
  | [] => none
  | c :: r =>
    if c = lbrace then some 0
    else if c = q then none
    else (findBraceSpec q r).map (· + 1)

/-- Greedy [^q]+ then the closing quote q: index of the first occurrence
of q (the content length). -/
def findClose (q : Char) : List Char → Option Nat
  | [] => none
  | c :: r =>
    if c = q then some 0
    else (findClose q r).map (· + 1)

/-! ### The three text-pattern matchers of review_logic.py -/

def sqlKeywords : List (List Char) :=
  ["SELECT".data, "INSERT".data, "UPDATE".data, "DELETE".data, "DROP".data]

def credKeywords : List (List Char) :=
  ["password".data, "passwd".data, "pwd".data, "secret".data,
   "key".data, "token".data, "auth".data]

def commentKeywords : List (List Char) :=
  ["def".data, "class".data, "if".data, "for".data, "while".data, "return".data]

/-- One attempt of the hardcoded-credentials pattern
(?:password|passwd|pwd|secret|key|token|auth)(?:\s*=\s*)(qq[^q]+qq)
with re.IGNORECASE, at the head of cs; returns the match length. -/
def tryCred (cs : List Char) : Option Nat :=
  match stripKeywordCI credKeywords cs with
  | none => none
  | some kr =>
    let ws1 := spanSpace kr.2
    match ws1.2 with
    | [] => none
    | e :: rest =>
      if e = '=' then
        let ws2 := spanSpace rest
        match ws2.2 with
        | [] => none
        | q :: r2 =>
          if q == squote || q == dquote then
            match findClose q r2 with
            | none => none
            | some m =>
              if 1 ≤ m then some (kr.1 + ws1.1 + 1 + ws2.1 + 1 + m + 1)
              else none
          else none
      else none

/-- One attempt of the SQL-injection pattern
f["q](?:\s*)(?:SELECT|INSERT|UPDATE|DELETE|DROP).*?(brace)
with re.IGNORECASE, at the head of cs. -/
def trySql (cs : List Char) : Option Nat :=
  match cs with
  | c0 :: c1 :: rest =>
    if (c0 == 'f' || c0 == 'F') && (c1 == dquote || c1 == squote) then
      let ws := spanSpace rest
      match stripKeywordCI sqlKeywords ws.2 with
      | none => none
      | some kr =>
        match findBrace kr.2 with
        | none => none
        | some g => some (2 + ws.1 + kr.1 + g + 1)
    else none
  | _ => none

/-- Claim-side matcher for C3 exactly as the claim words it: the brace must
occur before the opening quote char occurs again (the literal closing). -/
def trySqlSpec (cs : List Char) : Option Nat :=
  match cs with
  | c0 :: c1 :: rest =>
    if (c0 == 'f' || c0 == 'F') && (c1 == dquote || c1 == squote) then
      let ws := spanSpace rest
      match stripKeywordCI sqlKeywords ws.2 with
      | none => none
      | some kr =>
        match findBraceSpec c1 kr.2 with
        | none => none
        | some g => some (2 + ws.1 + kr.1 + g + 1)
    else none
  | _ => none

/-- One attempt of the commented-code pattern tail
\s*#\s*(def|class|if|for|while|return)\b at an anchor position. -/
def tryComment (cs : List Char) : Option Nat :=
  let ws1 := spanSpace cs
  match ws1.2 with
  | [] => none
  | c :: rest =>
    if c = '#' then
      let ws2 := spanSpace rest
      match stripKeywordCS commentKeywords ws2.2 with
      | none => none
      | some kr =>
        match kr.2 with
        | [] => some (ws1.1 + 1 + ws2.1 + kr.1)
        | d :: _ => if isWordChar d then none else some (ws1.1 + 1 + ws2.1 + kr.1)
    else none

/-! ### finditer scanning -/

/-- finditer semantics for an unanchored pattern: try every position left
to right, and resume scanning right after the end of each match. -/
def scanPositions (tryf : List Char → Option Nat) : Nat → List Char → Nat → List Nat
  | 0, _, _ => []
  | _ + 1, [], _ => []
  | fuel + 1, c :: rest, pos =>
    match tryf (c :: rest) with
    | some len => pos :: scanPositions tryf fuel ((c :: rest).drop len) (pos + len)
    | none => scanPositions tryf fuel rest (pos + 1)

/-- finditer semantics for the ^-anchored multiline commented-code pattern:
a match may start only at the string start or right after a newline. -/
def scanAnchored : Nat → List Char → Nat → Bool → List Nat
  | 0, _, _, _ => []
  | _ + 1, [], _, _ => []
  | fuel + 1, c :: rest, pos, anchor =>
    if anchor then
      match tryComment (c :: rest) with
      | some len => pos :: scanAnchored fuel ((c :: rest).drop len) (pos + len) false
      | none => scanAnchored fuel rest (pos + 1) (c == '\n')
    else scanAnchored fuel rest (pos + 1) (c == '\n')

def credPositions (cs : List Char) : List Nat := scanPositions tryCred cs.length cs 0
def sqlPositions (cs : List Char) : List Nat := scanPositions trySql cs.length cs 0
def sqlSpecPositions (cs : List Char) : List Nat := scanPositions trySqlSpec cs.length cs 0
def commentPositions (cs : List Char) : List Nat := scanAnchored cs.length cs 0 true

/-! ### Findings emitted by the text-pattern detectors -/

def commentFindings (cs : List Char) : List Finding :=
  (commentPositions cs).map (fun p =>
    ⟨"commented_code", "Commented out code should be removed",
     countNL (cs.take p) + 1, "minor"⟩)

def credFindings (cs : List Char) : List Finding :=
  (credPositions cs).map (fun p =>
    ⟨"hardcoded_credentials", "Hardcoded credentials detected",
     countNL (cs.take p) + 1, "critical"⟩)

def sqlFindings (cs : List Char) : List Finding :=
  (sqlPositions cs).map (fun p =>
    ⟨"sql_injection", "Potential SQL injection vulnerability detected",
     countNL (cs.take p) + 1, "critical"⟩)

/-! ### The syntax tree the code observes, and ast.walk -/

/-- A parsed node. The code isinstance-distinguishes FunctionDef,
ClassDef and For; the parsed tree also contains the other loop statements
of the language — While and AsyncFor — which the For check of the
detector does not recognize, so they are kept as distinct constructors
here; every
remaining node kind is opaque and only contributes its children. -/
inductive PyNode where
  | functionDef (name : String) (lineno : Nat) (body : List PyNode)
  | classDef (name : String) (lineno : Nat) (body : List PyNode)
  | forNode (lineno : Nat) (body : List PyNode)
  | whileNode (lineno : Nat) (body : List PyNode)
  | asyncForNode (lineno : Nat) (body : List PyNode)
  | other (lineno : Nat) (body : List PyNode)

def PyNode.children : PyNode → List PyNode
  | .functionDef _ _ b => b
  | .classDef _ _ b => b
  | .forNode _ b => b
  | .whileNode _ b => b
  | .asyncForNode _ b => b
  | .other _ b => b

def PyNode.lineno : PyNode → Nat
  | .functionDef _ l _ => l
  | .classDef _ l _ => l
  | .forNode l _ => l
  | .whileNode l _ => l
  | .asyncForNode l _ => l
  | .other l _ => l

/-- isinstance(node, ast.For): true only for a plain for statement (While
and AsyncFor are separate ast classes, not subclasses of For). -/
def PyNode.isFor : PyNode → Bool
  | .forNode _ _ => true
  | _ => false

/-- A loop node of the parsed tree in the sense of the specification:
a for, while or async-for statement. -/
def PyNode.isLoop : PyNode → Bool
  | .forNode _ _ => true
  | .whileNode _ _ => true
  | .asyncForNode _ _ => true
  | _ => false

mutual

/-- Number of nodes in the tree rooted at n. -/
def PyNode.size : PyNode → Nat
  | .functionDef _ _ b => 1 + sizeList b
  | .classDef _ _ b => 1 + sizeList b
  | .forNode _ b => 1 + sizeList b
  | .whileNode _ b => 1 + sizeList b
  | .asyncForNode _ b => 1 + sizeList b
  | .other _ b => 1 + sizeList b

/-- Total number of nodes in a forest. -/
def sizeList : List PyNode → Nat
  | [] => 0
  | n :: r => PyNode.size n + sizeList r

end

/-- ast.walk is a breadth-first traversal (a deque seeded with the root,
popping from the left and extending with children). Fuel-indexed so that
it computes by kernel reduction; the node count is exactly enough fuel. -/
def walkBFS : Nat → List PyNode → List PyNode
  | 0, _ => []
  | _ + 1, [] => []
  | fuel + 1, n :: q => n :: walkBFS fuel (q ++ n.children)

/-- All nodes reachable from a list of roots, in BFS order. -/
def walkAll (l : List PyNode) : List PyNode := walkBFS (sizeList l) l

/-- x occurs in the tree rooted at n (n itself included). -/
inductive InTree : PyNode → PyNode → Prop where
  | refl (n : PyNode) : InTree n n
  | child {x c n : PyNode} : c ∈ PyNode.children n → InTree x c → InTree x n

/-- x is a strict descendant of n. -/
def StrictIn (x n : PyNode) : Prop := ∃ c ∈ PyNode.children n, InTree x c

/-! ### Tree-based detectors -/

/-- re.match of ^[a-z][a-z0-9_]*$ against a function name. -/
def snakeOk (s : String) : Bool :=
  match s.data with
  | [] => false
  | c :: r =>
    ('a' ≤ c && c ≤ 'z') &&
      r.all (fun d => ('a' ≤ d && d ≤ 'z') || ('0' ≤ d && d ≤ '9') || d == '_')

/-- re.match of ^[A-Z][a-zA-Z0-9]*$ against a class name. -/
def pascalOk (s : String) : Bool :=
  match s.data with
  | [] => false
  | c :: r =>
    ('A' ≤ c && c ≤ 'Z') &&
      r.all (fun d =>
        ('a' ≤ d && d ≤ 'z') || ('A' ≤ d && d ≤ 'Z') || ('0' ≤ d && d ≤ '9'))

def namingFindings (body : List PyNode) : List Finding :=
  (walkAll body).filterMap (fun n =>
    match n with
    | .functionDef name ln _ =>
      if snakeOk name then none
      else some ⟨"naming_convention",
        "Function name \x27" ++ name ++ "\x27 doesn\x27t follow snake_case convention",
        ln, "minor"⟩
    | .classDef name ln _ =>
      if pascalOk name then none
      else some ⟨"naming_convention",
        "Class name \x27" ++ name ++ "\x27 doesn\x27t follow PascalCase convention",
        ln, "minor"⟩
    | _ => none)

def nestedMsg : String := "Nested loops detected (potential O(n²) complexity)"

/-- For every For node in walk order: walk its subtree, and on the first
strict-descendant For append one finding and break. -/
def nestedFindings (body : List PyNode) : List Finding :=
  (walkAll body).filterMap (fun n =>
    if n.isFor && (walkAll n.children).any PyNode.isFor then
      some ⟨"nested_loops", nestedMsg, n.lineno, "moderate"⟩
    else none)

/-! ### The parser oracle and the aggregator -/

/-- What ast.parse raises on failure: the diagnostic text str(e) and the
best-effort line e.lineno. -/
structure ParseErrorInfo where
  msg : String
  lineno : Nat
deriving DecidableEq

/-- The external ast.parse collaborator. -/
def PyParse : Type := List Char → Except ParseErrorInfo (List PyNode)

def synErrFinding (e : ParseErrorInfo) : Finding :=
  ⟨"syntax_error", "Syntax error: " ++ e.msg, e.lineno, "critical"⟩

/-- _analyze_general_issues: commented-code findings, then either the
naming-convention findings (parse ok) or one syntax_error finding. -/
def analyzeGeneral (parse : PyParse) (cs : List Char) : List Finding :=
  commentFindings cs ++
    (match parse cs with
     | .ok body => namingFindings body
     | .error e => [synErrFinding e])

/-- _analyze_security_issues: credentials findings then SQL findings. -/
def analyzeSecurity (cs : List Char) : List Finding :=
  credFindings cs ++ sqlFindings cs

/-- _analyze_performance_issues: nested-loop findings, nothing on a
SyntaxError (except ... pass). -/
def analyzePerformance (parse : PyParse) (cs : List Char) : List Finding :=
  match parse cs with
  | .ok body => nestedFindings body
  | .error _ => []

/-- The fresh issues dict analyze_file builds after a successful read. -/
def analyzeRun (parse : PyParse) (cs : List Char) : Issues :=
  ⟨analyzeGeneral parse cs, analyzeSecurity cs, analyzePerformance parse cs⟩

/-- analyze_file with the instance state threaded explicitly. The read is
an Option (none = FileNotFoundError). On read failure the code returns
self.issues_found as it stands, BEFORE the reset; on success it resets the
buckets and reruns the analyzers. Returns (returned dict, new state). -/
def analyze_file (parse : PyParse) (readResult : Option (List Char)) (s : Issues) :
    Issues × Issues :=
  match readResult with
  | none => (s, s)
  | some cs =>
    let r := analyzeRun parse cs
    (r, r)

/-! ### Report rendering -/

/-- load_template: reads the template file, returning the empty string on
FileNotFoundError (the provider signals not-found with none). -/
def load_template (provider : String → Option String) (t : String) : String :=
  match provider t with
  | some s => s
  | none => ""

/-- The f-string formatting one issue line. -/
def fmtLine (f : Finding) : String :=
  "- **" ++ f.ftype ++ "** (Line " ++ toString f.line ++ ", " ++ f.severity ++
    "): " ++ f.message ++ "\n"

/-- template_type in issues / issues[template_type] on the three-bucket
dict the analyzer builds. -/
def lookupIssues (i : Issues) (t : String) : Option (List Finding) :=
  if t = "general" then some i.general
  else if t = "security" then some i.security
  else if t = "performance" then some i.performance
  else none

/-- generate_review as written: falsy template (missing OR empty) short
circuits to the fixed fallback; otherwise header plus one line per issue,
or the fixed empty-category line. -/
def generate_review (provider : String → Option String) (i : Issues) (t : String) :
    String :=
  let template := load_template provider t
  if template = "" then "No template found"
  else
    let base := template ++ "\n\n## Issues Found\n\n"
    match lookupIssues i t with
    | some fs =>
      if fs.isEmpty then base ++ "No issues found for this category.\n"
      else fs.foldl (fun acc f2 => acc ++ fmtLine f2) base
    | none => base ++ "No issues found for this category.\n"

/-- generate_review with the issues argument threaded through, to state
the frame property: the body never assigns into the issues mapping, so the
threaded value is returned unchanged. -/
def generate_review_frame (provider : String → Option String) (i : Issues)
    (t : String) : String × Issues :=
  let template := load_template provider t
  if template = "" then ("No template found", i)
  else
    let base := template ++ "\n\n## Issues Found\n\n"
    match lookupIssues i t with
    | some fs =>
      if fs.isEmpty then (base ++ "No issues found for this category.\n", i)
      else (fs.foldl (fun acc f2 => acc ++ fmtLine f2) base, i)
    | none => (base ++ "No issues found for this category.\n", i)

/-! ### Declarative characterizations of the two security patterns -/

/-- The hardcoded-credentials pattern occurs at the head of cs: a chunk
matching one of the credential keywords up to case, optional whitespace,
an equals sign, optional whitespace, and a quoted literal with at least
one character of content. -/
def CredHere (cs : List Char) : Prop :=
  ∃ kw k ws1 ws2 q content rest,
    cs = kw ++ (ws1 ++ '=' :: (ws2 ++ q :: (content ++ q :: rest))) ∧
    k ∈ credKeywords ∧ ciMatches kw k ∧
    (∀ c ∈ ws1, isPySpace c = true) ∧ (∀ c ∈ ws2, isPySpace c = true) ∧
    (q = squote ∨ q = dquote) ∧ content ≠ [] ∧ (∀ c ∈ content, c ≠ q)

/-- The hardcoded-credentials pattern occurs at offset p of cs. -/
def CredPatternAt (cs : List Char) (p : Nat) : Prop := CredHere (cs.drop p)

/-- The (corrected) SQL-injection pattern occurs at the head of cs: the
letter f, an opening quote, optional whitespace, an SQL keyword up to
case, then an interpolation brace with no intervening newline; the
opening quote need not be matched by a closing one before the brace. -/
def SqlHere (cs : List Char) : Prop :=
  ∃ c0 c1 ws kw gap rest k,
    cs = c0 :: c1 :: (ws ++ (kw ++ (gap ++ lbrace :: rest))) ∧
    (c0 = 'f' ∨ c0 = 'F') ∧ (c1 = dquote ∨ c1 = squote) ∧
    (∀ c ∈ ws, isPySpace c = true) ∧ k ∈ sqlKeywords ∧ ciMatches kw k ∧
    (∀ c ∈ gap, c ≠ '\n')

/-- The (corrected) SQL-injection pattern occurs at offset p of cs. -/
def SqlPatternAt (cs : List Char) (p : Nat) : Prop := SqlHere (cs.drop p)

/-! ### Concrete inputs used by the claim counterexamples and witnesses -/

/-- An f-string whose literal closes before the interpolation brace: per
claim C3 it must not be flagged, yet the source regex matches it because
lazy .*? runs across the closing quote. -/
def sqlCexInput : List Char := ("f\x22SELECT a\x22 + \x7bb\x7d").data

/-- For claim C4: the only credential keyword here occurs as a proper
substring of the identifier monkey, yet the unanchored regex flags it. -/
def credCexInput : List Char := ("monkey = \x22banana\x22").data

def credWitnessInput : List Char := ("token = \x27t\x27").data

def credWitnessFinding : Finding :=
  ⟨"hardcoded_credentials", "Hardcoded credentials detected", 1, "critical"⟩

def sqlWitnessInput : List Char := ("f\x22select \x7bu\x7d\x22").data

def sqlWitnessFinding : Finding :=
  ⟨"sql_injection", "Potential SQL injection vulnerability detected", 1, "critical"⟩

def commentWitnessInput : List Char := ("# def f").data

def commentWitnessFinding : Finding :=
  ⟨"commented_code", "Commented out code should be removed", 1, "minor"⟩

def lineWitnessBody : List PyNode := [PyNode.forNode 1 []]

/-- Parse stub for claim C1: a parse oracle that always succeeds with an
empty module body (the tree contributes nothing to the security bucket
exercised by the claim). -/
def c1Parse : PyParse := fun _ => Except.ok []

def c1FirstInput : List Char := ("password = \x22hunter2\x22").data

/-- The instance state after a first, successful analyze_file call. -/
def c1State : Issues := (analyze_file c1Parse (some c1FirstInput) emptyIssues).2

def c5Parse : PyParse := fun _ => Except.error ⟨"invalid syntax", 2⟩

def c5Input : List Char := ("# def f\npassword = \x22pw\x22").data

/-! ### Sanity examples (spec section 8) -/

example : commentFindings ("# def unused():\n".data) =
    [⟨"commented_code", "Commented out code should be removed", 1, "minor"⟩] := by
  decide

example : credFindings ("password = \x22admin123\x22".data) =
    [⟨"hardcoded_credentials", "Hardcoded credentials detected", 1, "critical"⟩] := by
  decide

example : sqlFindings ("query = f\x22SELECT * FROM users WHERE id = \x7buser_id\x7d\x22".data)
    = [⟨"sql_injection", "Potential SQL injection vulnerability detected", 1,
        "critical"⟩] := by
  decide

example :
    nestedFindings [PyNode.functionDef "f" 1
      [PyNode.forNode 2 [PyNode.forNode 3 []]]] =
    [⟨"nested_loops", nestedMsg, 2, "moderate"⟩] := by
  decide

/-! ### Lemmas: whitespace runs -/

theorem toLower_of_space {c : Char} (h : isPySpace c = true) : c.toLower = c := by
  simp only [isPySpace, Bool.or_eq_true, beq_iff_eq] at h
  rcases h with ((((h | h) | h) | h) | h) | h <;> subst h <;> decide

theorem space_not_alpha {c : Char} (h : isPySpace c = true) :
    (c.toLower).isAlpha = false := by
  simp only [isPySpace, Bool.or_eq_true, beq_iff_eq] at h
  rcases h with ((((h | h) | h) | h) | h) | h <;> subst h <;> decide

theorem not_space_of_lower_alpha {c : Char} (h : (c.toLower).isAlpha = true) :
    isPySpace c = false := by
  cases hs : isPySpace c
  · rfl
  · rw [space_not_alpha hs] at h
    exact absurd h (by simp)

theorem ne_newline_of_lower_alpha {c : Char} (h : (c.toLower).isAlpha = true) :
    c ≠ '\n' := by
  intro hc
  subst hc
  exact absurd h (by decide)

theorem spanSpace_decomp (cs : List Char) :
    ∃ pre, cs = pre ++ (spanSpace cs).2 ∧ (spanSpace cs).1 = pre.length ∧
      ∀ c ∈ pre, isPySpace c = true := by
  induction cs with
  | nil => exact ⟨[], rfl, rfl, by simp⟩
  | cons c r ih =>
    by_cases h : isPySpace c
    · obtain ⟨pre, h1, h2, h3⟩ := ih
      refine ⟨c :: pre, ?_, ?_, ?_⟩
      · simp only [spanSpace, h, if_true, List.cons_append]
        exact congrArg (c :: ·) h1
      · simp only [spanSpace, h, if_true, List.length_cons]
        omega
      · intro x hx
        rcases List.mem_cons.mp hx with rfl | hx
        · exact h
        · exact h3 x hx
    · refine ⟨[], ?_, ?_, by simp⟩
      · simp [spanSpace, h]
      · simp [spanSpace, h]

theorem spanSpace_append (ws l : List Char) (hws : ∀ c ∈ ws, isPySpace c = true)
    (hl : ∀ c t, l = c :: t → isPySpace c = false) :
    spanSpace (ws ++ l) = (ws.length, l) := by
  induction ws with
  | nil =>
    cases l with
    | nil => rfl
    | cons c t =>
      simp only [List.nil_append, List.length_nil]
      simp [spanSpace, hl c t rfl]
  | cons w ws ih =>
    have hw : isPySpace w = true := hws w (List.mem_cons_self _ _)
    have ih2 := ih (fun c hc => hws c (List.mem_cons_of_mem _ hc))
    simp [List.cons_append, spanSpace, hw, ih2]

/-! ### Lemmas: keyword alternations -/

theorem ciMatches_length {a b : List Char} (h : ciMatches a b) : a.length = b.length := by
  have := congrArg List.length h
  simpa using this

theorem ciMatches_alpha {a b : List Char} (h : ciMatches a b)
    (hb : ∀ c ∈ b, (c.toLower).isAlpha = true) :
    ∀ c ∈ a, (c.toLower).isAlpha = true := by
  intro c hc
  have hmem : c.toLower ∈ a.map Char.toLower := List.mem_map_of_mem _ hc
  rw [h] at hmem
  obtain ⟨d, hd, hde⟩ := List.mem_map.mp hmem
  rw [← hde]
  exact hb d hd

theorem ciLeads_of_matches {kw k : List Char} (h : ciMatches kw k) (l : List Char) :
    ciLeads k (kw ++ l) = true := by
  induction k generalizing kw with
  | nil => rfl
  | cons p ps ih =>
    cases kw with
    | nil => exact absurd (ciMatches_length h) (by simp)
    | cons w ws =>
      simp only [ciMatches, List.map_cons, List.cons.injEq] at h
      simp only [List.cons_append, ciLeads, Bool.and_eq_true, beq_iff_eq]
      exact ⟨h.1.symm, ih h.2⟩

theorem ciLeads_decomp {k text : List Char} (h : ciLeads k text = true) :
    ciMatches (text.take k.length) k ∧ k.length ≤ text.length := by
  induction k generalizing text with
  | nil => simp [ciMatches]
  | cons p ps ih =>
    cases text with
    | nil => exact absurd h (by simp [ciLeads])
    | cons t ts =>
      simp only [ciLeads, Bool.and_eq_true, beq_iff_eq] at h
      obtain ⟨h1, h2⟩ := ih h.2
      constructor
      · simp only [List.length_cons, List.take_succ_cons, ciMatches, List.map_cons,
          List.cons.injEq]
        exact ⟨h.1.symm, h1⟩
      · simp only [List.length_cons]
        omega

theorem leadsCS_take (n : Nat) : ∀ l : List Char, leadsCS (l.take n) l = true := by
  induction n with
  | zero => intro l; simp [leadsCS]
  | succ n ih =>
    intro l
    cases l with
    | nil => simp [leadsCS]
    | cons c r => simp [leadsCS, ih r]

theorem stripKeywordCI_sound {ks : List (List Char)} {text : List Char} {klen : Nat}
    {rest : List Char} (h : stripKeywordCI ks text = some (klen, rest)) :
    ∃ k ∈ ks, klen = k.length ∧ rest = text.drop k.length ∧
      ciMatches (text.take k.length) k ∧ k.length ≤ text.length := by
  induction ks with
  | nil => exact absurd h (by simp [stripKeywordCI])
  | cons k0 ks ih =>
    by_cases hl : ciLeads k0 text = true
    · simp only [stripKeywordCI, hl, if_true, Option.some.injEq, Prod.mk.injEq] at h
      obtain ⟨hm, hle⟩ := ciLeads_decomp hl
      exact ⟨k0, List.mem_cons_self _ _, h.1.symm, h.2.symm, hm, hle⟩
    · simp only [stripKeywordCI, hl, if_false] at h
      obtain ⟨k, hk, hrest⟩ := ih h
      exact ⟨k, List.mem_cons_of_mem _ hk, hrest⟩

theorem stripKeywordCI_isSome {ks : List (List Char)} {k : List Char} (hk : k ∈ ks)
    {text : List Char} (h : ciLeads k text = true) :
    ∃ klen rest, stripKeywordCI ks text = some (klen, rest) := by
  induction ks with
  | nil => exact absurd hk (by simp)
  | cons k0 ks ih =>
    by_cases hl : ciLeads k0 text = true
    · exact ⟨k0.length, text.drop k0.length, by simp [stripKeywordCI, hl]⟩
    · rcases List.mem_cons.mp hk with rfl | hk2
      · exact absurd h hl
      · obtain ⟨klen, rest, hr⟩ := ih hk2
        exact ⟨klen, rest, by simp [stripKeywordCI, hl, hr]⟩

/-! ### Lemmas: brace and quote searches -/

theorem findBrace_sound {l : List Char} {g : Nat} (h : findBrace l = some g) :
    ∃ gap rest, l = gap ++ lbrace :: rest ∧ gap.length = g ∧ ∀ c ∈ gap, c ≠ '\n' := by
  induction l generalizing g with
  | nil => exact absurd h (by simp [findBrace])
  | cons c r ih =>
    by_cases hc : c = lbrace
    · subst hc
      simp only [findBrace, if_true] at h
      exact ⟨[], r, by simp, by simpa using h, by simp⟩
    · by_cases hn : c = '\n'
      · rw [findBrace, if_neg hc, hn] at h
        simp at h
      · rw [findBrace, if_neg hc, if_neg hn] at h
        obtain ⟨g2, hg2, rfl⟩ := Option.map_eq_some'.mp h
        obtain ⟨gap, rest, h1, h2, h3⟩ := ih hg2
        refine ⟨c :: gap, rest, by simp [h1], by simp [h2], ?_⟩
        intro x hx
        rcases List.mem_cons.mp hx with rfl | hx
        · exact hn
        · exact h3 x hx

theorem findBrace_complete {pre rest : List Char} (h : ∀ c ∈ pre, c ≠ '\n') :
    ∃ g, findBrace (pre ++ lbrace :: rest) = some g := by
  induction pre with
  | nil => exact ⟨0, by simp [findBrace]⟩
  | cons c pre ih =>
    by_cases hc : c = lbrace
    · exact ⟨0, by simp [findBrace, hc]⟩
    · obtain ⟨g, hg⟩ := ih (fun x hx => h x (List.mem_cons_of_mem _ hx))
      refine ⟨g + 1, ?_⟩
      rw [List.cons_append, findBrace, if_neg hc, if_neg (h c (List.mem_cons_self _ _)), hg]
      rfl

theorem findClose_sound {q : Char} {l : List Char} {m : Nat} (h : findClose q l = some m) :
    ∃ content rest, l = content ++ q :: rest ∧ content.length = m ∧
      ∀ c ∈ content, c ≠ q := by
  induction l generalizing m with
  | nil => exact absurd h (by simp [findClose])
  | cons c r ih =>
    by_cases hc : c = q
    · subst hc
      simp only [findClose, if_true] at h
      exact ⟨[], r, by simp, by simpa using h, by simp⟩
    · rw [findClose, if_neg hc] at h
      obtain ⟨m2, hm2, rfl⟩ := Option.map_eq_some'.mp h
      obtain ⟨content, rest, h1, h2, h3⟩ := ih hm2
      refine ⟨c :: content, rest, by simp [h1], by simp [h2], ?_⟩
      intro x hx
      rcases List.mem_cons.mp hx with rfl | hx
      · exact hc
      · exact h3 x hx

theorem findClose_complete {q : Char} {content rest : List Char}
    (h : ∀ c ∈ content, c ≠ q) :
    findClose q (content ++ q :: rest) = some content.length := by
  induction content with
  | nil => simp [findClose]
  | cons c content ih =>
    rw [List.cons_append, findClose, if_neg (h c (List.mem_cons_self _ _)),
      ih (fun x hx => h x (List.mem_cons_of_mem _ hx))]
    rfl

/-! ### Decidable facts about the keyword lists -/

theorem sqlKeywords_alpha : ∀ k ∈ sqlKeywords, ∀ c ∈ k, (c.toLower).isAlpha = true := by
  decide

theorem credKeywords_alpha : ∀ k ∈ credKeywords, ∀ c ∈ k, (c.toLower).isAlpha = true := by
  decide

theorem credKeywords_prefix_rigid :
    ∀ k1 ∈ credKeywords, ∀ k2 ∈ credKeywords,
      leadsCS (k2.map Char.toLower) (k1.map Char.toLower) = true →
        k2.length = k1.length := by
  decide

/-! ### Soundness of the one-position matchers -/

theorem tryCred_sound {cs : List Char} {len : Nat} (h : tryCred cs = some len) :
    CredHere cs := by
  unfold tryCred at h
  cases hstrip : stripKeywordCI credKeywords cs with
  | none => rw [hstrip] at h; simp at h
  | some kr =>
    rw [hstrip] at h
    obtain ⟨klen, rest1⟩ := kr
    simp only at h
    cases hsp1 : (spanSpace rest1).2 with
    | nil => rw [hsp1] at h; simp at h
    | cons e rest =>
      rw [hsp1] at h
      simp only at h
      by_cases he : e = '='
      · rw [if_pos he] at h
        cases hsp2 : (spanSpace rest).2 with
        | nil => rw [hsp2] at h; simp at h
        | cons q r2 =>
          rw [hsp2] at h
          simp only at h
          by_cases hq : (q == squote || q == dquote) = true
          · rw [if_pos hq] at h
            cases hclose : findClose q r2 with
            | none => rw [hclose] at h; simp at h
            | some m =>
              rw [hclose] at h
              simp only at h
              by_cases hm : 1 ≤ m
              · obtain ⟨k, hk, hklen, hrest1, hcm, hle⟩ := stripKeywordCI_sound hstrip
                obtain ⟨ws1, hd1, _, hws1⟩ := spanSpace_decomp rest1
                obtain ⟨ws2, hd2, _, hws2⟩ := spanSpace_decomp rest
                obtain ⟨content, rest2, hr2, hclen, hcq⟩ := findClose_sound hclose
                refine ⟨cs.take k.length, k, ws1, ws2, q, content, rest2, ?_, hk, hcm,
                  hws1, hws2, ?_, ?_, hcq⟩
                · conv_lhs => rw [← List.take_append_drop k.length cs]
                  rw [← hrest1, hd1, hsp1, he, hd2, hsp2, hr2]
                · rcases Bool.or_eq_true _ _ |>.mp hq with h2 | h2
                  · exact Or.inl (beq_iff_eq.mp h2)
                  · exact Or.inr (beq_iff_eq.mp h2)
                · intro hnil
                  rw [hnil] at hclen
                  simp at hclen
                  omega
              · rw [if_neg hm] at h; simp at h
          · rw [if_neg hq] at h; simp at h
      · rw [if_neg he] at h; simp at h

theorem trySql_sound {cs : List Char} {len : Nat} (h : trySql cs = some len) :
    SqlHere cs := by
  unfold trySql at h
  cases cs with
  | nil => simp at h
  | cons c0 cs1 =>
    cases cs1 with
    | nil => simp at h
    | cons c1 rest =>
      simp only at h
      by_cases hcond : ((c0 == 'f' || c0 == 'F') && (c1 == dquote || c1 == squote)) = true
      · rw [if_pos hcond] at h
        cases hstrip : stripKeywordCI sqlKeywords (spanSpace rest).2 with
        | none => rw [hstrip] at h; simp at h
        | some kr =>
          rw [hstrip] at h
          obtain ⟨klen, rest1⟩ := kr
          simp only at h
          cases hbrace : findBrace rest1 with
          | none => rw [hbrace] at h; simp at h
          | some g =>
            obtain ⟨k, hk, hklen, hrest1, hcm, hle⟩ := stripKeywordCI_sound hstrip
            obtain ⟨ws, hdw, _, hws⟩ := spanSpace_decomp rest
            obtain ⟨gap, rest2, hgapd, hglen, hgap⟩ := findBrace_sound hbrace
            obtain ⟨hc0, hc1⟩ := Bool.and_eq_true _ _ |>.mp hcond
            refine ⟨c0, c1, ws, (spanSpace rest).2.take k.length, gap, rest2, k,
              ?_, ?_, ?_, hws, hk, hcm, hgap⟩
            · have : rest = ws ++ ((spanSpace rest).2.take k.length ++
                  (gap ++ lbrace :: rest2)) := by
                conv_lhs => rw [hdw]
                congr 1
                conv_lhs => rw [← List.take_append_drop k.length (spanSpace rest).2]
                rw [← hrest1, hgapd]
              exact congrArg (fun l => c0 :: c1 :: l) this
            · rcases Bool.or_eq_true _ _ |>.mp hc0 with h2 | h2
              · exact Or.inl (beq_iff_eq.mp h2)
              · exact Or.inr (beq_iff_eq.mp h2)
            · rcases Bool.or_eq_true _ _ |>.mp hc1 with h2 | h2
              · exact Or.inl (beq_iff_eq.mp h2)
              · exact Or.inr (beq_iff_eq.mp h2)
      · rw [if_neg hcond] at h; simp at h

/-! ### Scanner lemmas -/

theorem scanPositions_sound (tryf : List Char → Option Nat) :
    ∀ (fuel : Nat) (cs : List Char) (pos p : Nat), p ∈ scanPositions tryf fuel cs pos →
      ∃ d len, p = pos + d ∧ tryf (cs.drop d) = some len := by
  intro fuel
  induction fuel with
  | zero => intro cs pos p hp; simp [scanPositions] at hp
  | succ fuel ih =>
    intro cs pos p hp
    cases cs with
    | nil => simp [scanPositions] at hp
    | cons c rest =>
      cases htry : tryf (c :: rest) with
      | some len =>
        rw [scanPositions, htry] at hp
        rcases List.mem_cons.mp hp with rfl | hp2
        · exact ⟨0, len, by omega, htry⟩
        · obtain ⟨d, len2, hpd, hd⟩ := ih _ _ p hp2
          refine ⟨len + d, len2, by omega, ?_⟩
          rw [List.drop_drop] at hd
          exact hd
      | none =>
        rw [scanPositions, htry] at hp
        obtain ⟨d, len2, hpd, hd⟩ := ih _ _ p hp
        exact ⟨d + 1, len2, by omega, by rw [List.drop_succ_cons]; exact hd⟩

theorem scanPositions_empty (tryf : List Char → Option Nat) (h0 : tryf [] = none) :
    ∀ (fuel : Nat) (cs : List Char) (pos : Nat), cs.length ≤ fuel →
      scanPositions tryf fuel cs pos = [] → ∀ d, tryf (cs.drop d) = none := by
  intro fuel
  induction fuel with
  | zero =>
    intro cs pos hlen _ d
    have : cs = [] := List.eq_nil_of_length_eq_zero (by omega)
    subst this
    simpa using h0
  | succ fuel ih =>
    intro cs pos hlen hscan d
    cases cs with
    | nil => simpa using h0
    | cons c rest =>
      cases htry : tryf (c :: rest) with
      | some len => rw [scanPositions, htry] at hscan; simp at hscan
      | none =>
        rw [scanPositions, htry] at hscan
        cases d with
        | zero => exact htry
        | succ d2 =>
          have := ih rest (pos + 1) (by simpa using Nat.le_of_succ_le_succ hlen) hscan d2
          simpa using this

theorem scanAnchored_sound :
    ∀ (fuel : Nat) (cs : List Char) (pos : Nat) (anchor : Bool) (p : Nat),
      p ∈ scanAnchored fuel cs pos anchor →
      ∃ d len, p = pos + d ∧ tryComment (cs.drop d) = some len := by
  intro fuel
  induction fuel with
  | zero => intro cs pos anchor p hp; simp [scanAnchored] at hp
  | succ fuel ih =>
    intro cs pos anchor p hp
    cases cs with
    | nil => simp [scanAnchored] at hp
    | cons c rest =>
      cases anchor with
      | false =>
        rw [scanAnchored, if_neg Bool.false_ne_true] at hp
        obtain ⟨d, len2, hpd, hd⟩ := ih _ _ _ p hp
        exact ⟨d + 1, len2, by omega, by rw [List.drop_succ_cons]; exact hd⟩
      | true =>
        rw [scanAnchored, if_pos rfl] at hp
        cases htry : tryComment (c :: rest) with
        | some len =>
          rw [htry] at hp
          rcases List.mem_cons.mp hp with rfl | hp2
          · exact ⟨0, len, by omega, htry⟩
          · obtain ⟨d, len2, hpd, hd⟩ := ih _ _ _ p hp2
            refine ⟨len + d, len2, by omega, ?_⟩
            rw [List.drop_drop] at hd
            exact hd
        | none =>
          rw [htry] at hp
          obtain ⟨d, len2, hpd, hd⟩ := ih _ _ _ p hp
          exact ⟨d + 1, len2, by omega, by rw [List.drop_succ_cons]; exact hd⟩

theorem tryCred_nil : tryCred [] = none := by decide

theorem trySql_nil : trySql [] = none := rfl

theorem trySqlSpec_nil : trySqlSpec [] = none := rfl

theorem tryComment_nil : tryComment [] = none := rfl

theorem credPositions_sound {cs : List Char} {p : Nat} (hp : p ∈ credPositions cs) :
    p < cs.length ∧ ∃ len, tryCred (cs.drop p) = some len := by
  obtain ⟨d, len, hpd, hd⟩ := scanPositions_sound tryCred cs.length cs 0 p hp
  have hdp : p = d := by omega
  subst hdp
  refine ⟨?_, len, hd⟩
  by_contra hge
  rw [List.drop_eq_nil_iff.mpr (by omega)] at hd
  rw [tryCred_nil] at hd
  simp at hd

theorem sqlPositions_sound {cs : List Char} {p : Nat} (hp : p ∈ sqlPositions cs) :
    p < cs.length ∧ ∃ len, trySql (cs.drop p) = some len := by
  obtain ⟨d, len, hpd, hd⟩ := scanPositions_sound trySql cs.length cs 0 p hp
  have hdp : p = d := by omega
  subst hdp
  refine ⟨?_, len, hd⟩
  by_contra hge
  rw [List.drop_eq_nil_iff.mpr (by omega)] at hd
  rw [trySql_nil] at hd
  simp at hd

theorem commentPositions_sound {cs : List Char} {p : Nat} (hp : p ∈ commentPositions cs) :
    p < cs.length ∧ ∃ len, tryComment (cs.drop p) = some len := by
  obtain ⟨d, len, hpd, hd⟩ := scanAnchored_sound cs.length cs 0 true p hp
  have hdp : p = d := by omega
  subst hdp
  refine ⟨?_, len, hd⟩
  by_contra hge
  rw [List.drop_eq_nil_iff.mpr (by omega)] at hd
  rw [tryComment_nil] at hd
  simp at hd

/-! ### Completeness of the one-position matchers -/

theorem trySql_complete {cs : List Char} (h : SqlHere cs) : ∃ len, trySql cs = some len := by
  obtain ⟨c0, c1, ws, kw, gap, rest, k, hcs, hc0, hc1, hws, hk, hcm, hgap⟩ := h
  subst hcs
  have hcond : ((c0 == 'f' || c0 == 'F') && (c1 == dquote || c1 == squote)) = true := by
    rcases hc0 with rfl | rfl <;> rcases hc1 with rfl | rfl <;> decide
  have hkne : k ≠ [] := by
    intro hknil
    subst hknil
    revert hk
    decide
  have hkwalpha : ∀ c ∈ kw, (c.toLower).isAlpha = true :=
    ciMatches_alpha hcm (sqlKeywords_alpha k hk)
  have hkwne : kw ≠ [] := by
    intro hnil
    have hlen := ciMatches_length hcm
    rw [hnil] at hlen
    exact hkne (List.eq_nil_of_length_eq_zero (by simpa using hlen.symm))
  have hspan : spanSpace (ws ++ (kw ++ (gap ++ lbrace :: rest))) =
      (ws.length, kw ++ (gap ++ lbrace :: rest)) := by
    apply spanSpace_append ws _ hws
    intro c t hct
    cases kw with
    | nil => exact absurd rfl hkwne
    | cons kc kt =>
      simp only [List.cons_append] at hct
      injection hct with h1 _
      rw [← h1]
      exact not_space_of_lower_alpha (hkwalpha kc (List.mem_cons_self _ _))
  have hlead : ciLeads k (kw ++ (gap ++ lbrace :: rest)) = true := ciLeads_of_matches hcm _
  obtain ⟨klen, rest1, hstrip⟩ := stripKeywordCI_isSome hk hlead
  obtain ⟨k2, hk2, hklen, hrest1, hcm2, hle2⟩ := stripKeywordCI_sound hstrip
  have hbound : k2.length ≤ kw.length + gap.length := by
    by_contra hgt
    push_neg at hgt
    have hmem : lbrace ∈ (kw ++ (gap ++ lbrace :: rest)).take k2.length := by
      rw [← List.append_assoc, List.take_append_eq_append_take]
      apply List.mem_append.mpr
      right
      have hpos : 0 < k2.length - (kw ++ gap).length := by
        rw [List.length_append]
        omega
      cases hdd : k2.length - (kw ++ gap).length with
      | zero => omega
      | succ n =>
        rw [List.take_succ_cons]
        exact List.mem_cons_self _ _
    have halpha := ciMatches_alpha hcm2 (sqlKeywords_alpha k2 hk2) lbrace hmem
    exact absurd halpha (by decide)
  have hdropT : (kw ++ (gap ++ lbrace :: rest)).drop k2.length =
      ((kw ++ gap).drop k2.length) ++ lbrace :: rest := by
    rw [← List.append_assoc, List.drop_append_eq_append_drop,
      Nat.sub_eq_zero_of_le (by rw [List.length_append]; omega)]
    simp
  have hpre : ∀ c ∈ (kw ++ gap).drop k2.length, c ≠ '\n' := by
    intro c hc
    rcases List.mem_append.mp (List.mem_of_mem_drop hc) with hkw2 | hg
    · exact ne_newline_of_lower_alpha (hkwalpha c hkw2)
    · exact hgap c hg
  obtain ⟨g, hbr⟩ := @findBrace_complete ((kw ++ gap).drop k2.length) rest hpre
  have hbrace1 : findBrace rest1 = some g := by
    rw [hrest1, hdropT]
    exact hbr
  refine ⟨2 + ws.length + klen + g + 1, ?_⟩
  simp [trySql, hcond, hspan, hstrip, hbrace1]

theorem tryCred_complete {cs : List Char} (h : CredHere cs) : ∃ len, tryCred cs = some len := by
  obtain ⟨kw, k, ws1, ws2, q, content, rest, hcs, hk, hcm, hws1, hws2, hq, hcne, hcq⟩ := h
  subst hcs
  have hkwalpha : ∀ c ∈ kw, (c.toLower).isAlpha = true :=
    ciMatches_alpha hcm (credKeywords_alpha k hk)
  have hlead : ciLeads k (kw ++ (ws1 ++ '=' :: (ws2 ++ q :: (content ++ q :: rest)))) = true :=
    ciLeads_of_matches hcm _
  obtain ⟨klen, rest1, hstrip⟩ := stripKeywordCI_isSome hk hlead
  obtain ⟨k2, hk2, hklen, hrest1, hcm2, hle⟩ := stripKeywordCI_sound hstrip
  have hkwlen : kw.length = k.length := ciMatches_length hcm
  have hk2kw : k2.length = kw.length := by
    rcases le_or_lt k2.length kw.length with hle2 | hgt
    · have htake : (kw ++ (ws1 ++ '=' :: (ws2 ++ q :: (content ++ q :: rest)))).take
          k2.length = kw.take k2.length := by
        rw [List.take_append_eq_append_take, Nat.sub_eq_zero_of_le hle2]
        simp
      rw [htake] at hcm2
      have hmap : (kw.take k2.length).map Char.toLower =
          (k.map Char.toLower).take k2.length := by
        rw [List.map_take, hcm]
      have hpref : k2.map Char.toLower = (k.map Char.toLower).take k2.length := by
        rw [← hcm2]
        exact hmap
      have hlead2 : leadsCS (k2.map Char.toLower) (k.map Char.toLower) = true := by
        rw [hpref]
        exact leadsCS_take _ _
      have := credKeywords_prefix_rigid k hk k2 hk2 hlead2
      omega
    · exfalso
      have hbad : ∃ c ∈ (kw ++ (ws1 ++ '=' :: (ws2 ++ q :: (content ++ q :: rest)))).take
          k2.length, (c.toLower).isAlpha = false := by
        rw [List.take_append_eq_append_take]
        cases hws1case : ws1 with
        | nil =>
          refine ⟨'=', ?_, by decide⟩
          apply List.mem_append.mpr
          right
          simp only [List.nil_append]
          have hpos : 0 < k2.length - kw.length := by omega
          cases hdd : k2.length - kw.length with
          | zero => omega
          | succ n =>
            rw [List.take_succ_cons]
            exact List.mem_cons_self _ _
        | cons w ws1t =>
          have hwmem : w ∈ ws1 := by
            rw [hws1case]
            exact List.mem_cons_self _ _
          refine ⟨w, ?_, space_not_alpha (hws1 w hwmem)⟩
          apply List.mem_append.mpr
          right
          simp only [List.cons_append]
          have hpos : 0 < k2.length - kw.length := by omega
          cases hdd : k2.length - kw.length with
          | zero => omega
          | succ n =>
            rw [List.take_succ_cons]
            exact List.mem_cons_self _ _
      obtain ⟨c, hcmem, hcbad⟩ := hbad
      have hcgood := ciMatches_alpha hcm2 (credKeywords_alpha k2 hk2) c hcmem
      rw [hcgood] at hcbad
      exact absurd hcbad (by simp)
  have hrest1' : rest1 = ws1 ++ '=' :: (ws2 ++ q :: (content ++ q :: rest)) := by
    rw [hrest1, hk2kw, List.drop_left]
  have hspan1 : spanSpace (ws1 ++ '=' :: (ws2 ++ q :: (content ++ q :: rest))) =
      (ws1.length, '=' :: (ws2 ++ q :: (content ++ q :: rest))) := by
    apply spanSpace_append _ _ hws1
    intro c t hct
    injection hct with h1 _
    subst h1
    decide
  have hspan2 : spanSpace (ws2 ++ q :: (content ++ q :: rest)) =
      (ws2.length, q :: (content ++ q :: rest)) := by
    apply spanSpace_append _ _ hws2
    intro c t hct
    injection hct with h1 _
    subst h1
    rcases hq with rfl | rfl <;> decide
  have hqb : (q == squote || q == dquote) = true := by
    rcases hq with rfl | rfl <;> decide
  have hclose : findClose q (content ++ q :: rest) = some content.length :=
    findClose_complete hcq
  have hcl : 1 ≤ content.length := by
    cases content with
    | nil => exact absurd rfl hcne
    | cons a b => simp
  refine ⟨klen + ws1.length + 1 + ws2.length + 1 + content.length + 1, ?_⟩
  simp [tryCred, hstrip, hrest1', hspan1, hspan2, hqb, hclose, hcl]

/-! ### Walk lemmas -/

theorem sizeList_append (a b : List PyNode) :
    sizeList (a ++ b) = sizeList a + sizeList b := by
  induction a with
  | nil => simp [sizeList]
  | cons n r ih =>
    simp only [List.cons_append, sizeList, List.append_eq]
    simp only [List.append_eq] at ih
    rw [ih]
    omega

theorem one_le_size (n : PyNode) : 1 ≤ PyNode.size n := by
  cases n <;> simp [PyNode.size]

theorem size_eq (n : PyNode) : PyNode.size n = 1 + sizeList n.children := by
  cases n <;> rfl

theorem mem_walkBFS : ∀ (fuel : Nat) (l : List PyNode), sizeList l ≤ fuel →
    ∀ x, x ∈ walkBFS fuel l ↔ ∃ m ∈ l, InTree x m := by
  intro fuel
  induction fuel with
  | zero =>
    intro l hl x
    cases l with
    | nil => simp [walkBFS]
    | cons n q =>
      exfalso
      have h1 := one_le_size n
      simp only [sizeList] at hl
      omega
  | succ fuel ih =>
    intro l hl x
    cases l with
    | nil => simp [walkBFS]
    | cons n q =>
      rw [walkBFS]
      have hsz : sizeList (q ++ n.children) ≤ fuel := by
        have h1 := size_eq n
        have h2 := sizeList_append q n.children
        simp only [sizeList] at hl
        omega
      rw [List.mem_cons, ih (q ++ n.children) hsz x]
      constructor
      · rintro (rfl | ⟨m, hm, it⟩)
        · exact ⟨x, List.mem_cons_self _ _, InTree.refl x⟩
        · rcases List.mem_append.mp hm with hmq | hmc
          · exact ⟨m, List.mem_cons_of_mem _ hmq, it⟩
          · exact ⟨n, List.mem_cons_self _ _, InTree.child hmc it⟩
      · rintro ⟨m, hm, it⟩
        rcases List.mem_cons.mp hm with rfl | hmq
        · cases it with
          | refl => exact Or.inl rfl
          | child hc it2 => exact Or.inr ⟨_, List.mem_append.mpr (Or.inr hc), it2⟩
        · exact Or.inr ⟨m, List.mem_append.mpr (Or.inl hmq), it⟩

theorem mem_walkAll {l : List PyNode} {x : PyNode} :
    x ∈ walkAll l ↔ ∃ m ∈ l, InTree x m :=
  mem_walkBFS (sizeList l) l le_rfl x

theorem filterMap_if {α β : Type} (p : α → Bool) (g : α → β) (l : List α) :
    l.filterMap (fun a => if p a then some (g a) else none) = (l.filter p).map g := by
  induction l with
  | nil => rfl
  | cons a l ih =>
    by_cases h : p a <;> simp [List.filterMap_cons, List.filter_cons, h, ih]

/-! ### Shape of the findings each detector emits -/

theorem mem_commentFindings {cs : List Char} {f : Finding}
    (hf : f ∈ commentFindings cs) :
    ∃ p ∈ commentPositions cs,
      f = ⟨"commented_code", "Commented out code should be removed",
           countNL (cs.take p) + 1, "minor"⟩ := by
  obtain ⟨p, hp, hf2⟩ := List.mem_map.mp hf
  exact ⟨p, hp, hf2.symm⟩

theorem mem_credFindings {cs : List Char} {f : Finding} (hf : f ∈ credFindings cs) :
    ∃ p ∈ credPositions cs,
      f = ⟨"hardcoded_credentials", "Hardcoded credentials detected",
           countNL (cs.take p) + 1, "critical"⟩ := by
  obtain ⟨p, hp, hf2⟩ := List.mem_map.mp hf
  exact ⟨p, hp, hf2.symm⟩

theorem mem_sqlFindings {cs : List Char} {f : Finding} (hf : f ∈ sqlFindings cs) :
    ∃ p ∈ sqlPositions cs,
      f = ⟨"sql_injection", "Potential SQL injection vulnerability detected",
           countNL (cs.take p) + 1, "critical"⟩ := by
  obtain ⟨p, hp, hf2⟩ := List.mem_map.mp hf
  exact ⟨p, hp, hf2.symm⟩

theorem mem_namingFindings {body : List PyNode} {f : Finding}
    (hf : f ∈ namingFindings body) :
    f.ftype = "naming_convention" ∧ f.severity = "minor" ∧
      ∃ n ∈ walkAll body, f.line = PyNode.lineno n := by
  obtain ⟨n, hn, hsome⟩ := List.mem_filterMap.mp hf
  cases n with
  | functionDef name ln b =>
    by_cases hs : snakeOk name
    · simp [hs] at hsome
    · simp only [hs, if_false, Option.some.injEq, Bool.false_eq_true] at hsome
      rw [← hsome]
      exact ⟨rfl, rfl, .functionDef name ln b, hn, rfl⟩
  | classDef name ln b =>
    by_cases hs : pascalOk name
    · simp [hs] at hsome
    · simp only [hs, if_false, Option.some.injEq, Bool.false_eq_true] at hsome
      rw [← hsome]
      exact ⟨rfl, rfl, .classDef name ln b, hn, rfl⟩
  | forNode ln b => simp at hsome
  | whileNode ln b => simp at hsome
  | asyncForNode ln b => simp at hsome
  | other ln b => simp at hsome

theorem mem_nestedFindings {body : List PyNode} {f : Finding}
    (hf : f ∈ nestedFindings body) :
    f.ftype = "nested_loops" ∧ f.severity = "moderate" ∧
      ∃ n ∈ walkAll body, f.line = PyNode.lineno n := by
  obtain ⟨n, hn, hsome⟩ := List.mem_filterMap.mp hf
  by_cases hc : (n.isFor && (walkAll n.children).any PyNode.isFor) = true
  · rw [if_pos hc] at hsome
    obtain rfl := Option.some.injEq .. |>.mp hsome
    exact ⟨rfl, rfl, n, hn, rfl⟩
  · rw [if_neg hc] at hsome
    simp at hsome

/-! ### String-append utilities for the renderer -/

theorem foldl_fmt_hoist (fs : List Finding) : ∀ acc : String,
    fs.foldl (fun a f2 => a ++ fmtLine f2) acc =
      acc ++ fs.foldl (fun a f2 => a ++ fmtLine f2) "" := by
  induction fs with
  | nil =>
    intro acc
    simp [String.append_empty]
  | cons f fs ih =>
    intro acc
    simp only [List.foldl_cons]
    rw [ih (acc ++ fmtLine f), ih ("" ++ fmtLine f), String.empty_append,
      String.append_assoc]

theorem join_map_fmt (fs : List Finding) :
    String.join (fs.map fmtLine) = fs.foldl (fun a f2 => a ++ fmtLine f2) "" := by
  show (fs.map fmtLine).foldl (· ++ ·) "" = _
  rw [List.foldl_map]

/-! ### Claim theorems -/

/-- C1 (code bug): when the read fails, analyze_file returns
self.issues_found as left by the previous run, because the reset of the
buckets happens only after a successful read. Concretely: after a first
successful run on an input holding a hardcoded password, a second call
with a failing read returns that stale state, whose security bucket is
not empty — contradicting the spec sentence that no partial
AnalysisResult is produced and that no findings leak across calls. -/
theorem analyze_file_stale_after_read_failure :
    (analyze_file c1Parse none c1State).1 = c1State ∧ c1State.security ≠ [] := by
  constructor
  · rfl
  · decide

/-- C2 counterexample: a while statement is a loop node of the parsed
tree and has a for loop among its strict descendants, yet the detector,
whose check is isinstance(node, ast.For), emits no finding at all — the
claim as stated predicts exactly one Finding at line 1. -/
theorem nested_loops_cex :
    nestedFindings [PyNode.whileNode 1 [PyNode.forNode 2 []]] = [] ∧
    PyNode.isLoop (PyNode.whileNode 1 [PyNode.forNode 2 []]) = true ∧
    ∃ d, StrictIn d (PyNode.whileNode 1 [PyNode.forNode 2 []]) ∧
      PyNode.isLoop d = true := by
  refine ⟨by decide, rfl, PyNode.forNode 2 [], ?_, rfl⟩
  exact ⟨PyNode.forNode 2 [], List.mem_cons_self _ _, InTree.refl _⟩

/-- C2 amended: the detector treats only plain for statements as loops
(its check is isinstance(node, ast.For); while and async-for loop nodes
are never flagged and never count as nesting). For every for-loop node
that has a for-loop among its strict descendants it emits exactly one
Finding(performance, nested_loops, moderate) at the outer loop line, and
no finding for any other node; the executable descendant test coincides
with the inductive descendant relation. -/
theorem nested_loops_exact (body : List PyNode) :
    nestedFindings body =
      ((walkAll body).filter
          (fun n => n.isFor && (walkAll n.children).any PyNode.isFor)).map
        (fun n => ⟨"nested_loops", nestedMsg, n.lineno, "moderate"⟩) ∧
    ∀ n : PyNode,
      ((walkAll n.children).any PyNode.isFor = true ↔
        ∃ d, StrictIn d n ∧ d.isFor = true) := by
  constructor
  · unfold nestedFindings
    exact filterMap_if _ _ _
  · intro n
    rw [List.any_eq_true]
    constructor
    · rintro ⟨x, hx, hfor⟩
      obtain ⟨m, hm, it⟩ := mem_walkAll.mp hx
      exact ⟨x, ⟨m, hm, it⟩, hfor⟩
    · rintro ⟨d, ⟨c, hc, it⟩, hfor⟩
      exact ⟨d, mem_walkAll.mpr ⟨c, hc, it⟩, hfor⟩

theorem nested_loops_exact_witness :
    nestedFindings [PyNode.forNode 1 [PyNode.forNode 2 []]] =
      ((walkAll [PyNode.forNode 1 [PyNode.forNode 2 []]]).filter
          (fun n => n.isFor && (walkAll n.children).any PyNode.isFor)).map
        (fun n => ⟨"nested_loops", nestedMsg, n.lineno, "moderate"⟩) :=
  (nested_loops_exact [PyNode.forNode 1 [PyNode.forNode 2 []]]).1

/-- C3 counterexample: on an input whose f-string literal closes before
the interpolation brace, the claim as stated predicts no finding (the
claim-side matcher finds no match anywhere), yet the code emits one,
because the lazy dot-star of the compiled pattern runs across the closing
quote up to the first brace on the same line. -/
theorem sql_injection_cex :
    sqlFindings sqlCexInput =
      [⟨"sql_injection", "Potential SQL injection vulnerability detected", 1,
        "critical"⟩] ∧
    ∀ p, trySqlSpec (sqlCexInput.drop p) = none := by
  constructor
  · decide
  · exact scanPositions_empty trySqlSpec trySqlSpec_nil sqlCexInput.length
      sqlCexInput 0 le_rfl (by decide)

/-- C3 amended: every finding of the SQL detector is
Finding(security, sql_injection, critical) whose line is one plus the
newlines before a position where the corrected pattern occurs (f, a
quote, optional whitespace, an SQL keyword case-insensitively, then a
brace with no newline between — whether or not the literal has closed),
and whenever the corrected pattern occurs somewhere, at least one finding
is emitted. -/
theorem sql_injection_amended (cs : List Char) :
    (∀ f ∈ sqlFindings cs, f.ftype = "sql_injection" ∧ f.severity = "critical" ∧
      ∃ p, SqlPatternAt cs p ∧ f.line = countNL (cs.take p) + 1) ∧
    ((∃ p, SqlPatternAt cs p) → sqlFindings cs ≠ []) := by
  constructor
  · intro f hf
    obtain ⟨p, hp, rfl⟩ := mem_sqlFindings hf
    obtain ⟨hlt, len, hlen⟩ := sqlPositions_sound hp
    exact ⟨rfl, rfl, p, trySql_sound hlen, rfl⟩
  · rintro ⟨p, hpat⟩ hnil
    have hpos : sqlPositions cs = [] := by
      unfold sqlFindings at hnil
      exact List.map_eq_nil_iff.mp hnil
    have hnone := scanPositions_empty trySql trySql_nil cs.length cs 0 le_rfl hpos p
    obtain ⟨len, hsome⟩ := trySql_complete hpat
    rw [hnone] at hsome
    simp at hsome

theorem sql_injection_amended_witness :
    sqlWitnessFinding.ftype = "sql_injection" ∧
    sqlWitnessFinding.severity = "critical" ∧
    ∃ p, SqlPatternAt sqlWitnessInput p ∧
      sqlWitnessFinding.line = countNL (sqlWitnessInput.take p) + 1 :=
  (sql_injection_amended sqlWitnessInput).1 sqlWitnessFinding (by decide)

/-- C4 counterexample: the identifier monkey merely contains the keyword
key as a proper substring, yet the detector (whose pattern has no word
boundary) emits a finding — the claim as stated predicts none. -/
theorem hardcoded_credentials_cex :
    credFindings credCexInput =
      [⟨"hardcoded_credentials", "Hardcoded credentials detected", 1,
        "critical"⟩] := by
  decide

/-- C4 amended: every finding of the credentials detector is
Finding(security, hardcoded_credentials, critical) whose line is one plus
the newlines before a position where the pattern occurs (a credential
keyword case-insensitively — at any position, including inside a longer
identifier — then optional whitespace, an equals sign, optional
whitespace and a non-empty quoted literal), at least one finding is
emitted whenever the pattern occurs, and the spec example yields exactly
one finding at line 1. -/
theorem hardcoded_credentials_amended :
    (∀ cs : List Char,
      (∀ f ∈ credFindings cs, f.ftype = "hardcoded_credentials" ∧
        f.severity = "critical" ∧
        ∃ p, CredPatternAt cs p ∧ f.line = countNL (cs.take p) + 1) ∧
      ((∃ p, CredPatternAt cs p) → credFindings cs ≠ [])) ∧
    credFindings (("password = \x22admin123\x22").data) =
      [⟨"hardcoded_credentials", "Hardcoded credentials detected", 1,
        "critical"⟩] := by
  constructor
  · intro cs
    constructor
    · intro f hf
      obtain ⟨p, hp, rfl⟩ := mem_credFindings hf
      obtain ⟨hlt, len, hlen⟩ := credPositions_sound hp
      exact ⟨rfl, rfl, p, tryCred_sound hlen, rfl⟩
    · rintro ⟨p, hpat⟩ hnil
      have hpos : credPositions cs = [] := by
        unfold credFindings at hnil
        exact List.map_eq_nil_iff.mp hnil
      have hnone := scanPositions_empty tryCred tryCred_nil cs.length cs 0 le_rfl
        hpos p
      obtain ⟨len, hsome⟩ := tryCred_complete hpat
      rw [hnone] at hsome
      simp at hsome
  · decide

theorem hardcoded_credentials_amended_witness :
    credWitnessFinding.ftype = "hardcoded_credentials" ∧
    credWitnessFinding.severity = "critical" ∧
    ∃ p, CredPatternAt credWitnessInput p ∧
      credWitnessFinding.line = countNL (credWitnessInput.take p) + 1 :=
  (hardcoded_credentials_amended.1 credWitnessInput).1 credWitnessFinding (by decide)

/-- C5: when the parse oracle fails, the analysis result is exactly the
commented-code findings followed by one syntax_error finding (general,
critical, carrying the diagnostic text and the reported line), the
security bucket still holds the credentials and SQL findings computed
from the raw text, the performance bucket is empty, and across all
buckets exactly one syntax_error finding occurs. -/
theorem syntax_error_recovery (parse : PyParse) (cs : List Char) (e : ParseErrorInfo)
    (h : parse cs = .error e) :
    analyzeRun parse cs =
      ⟨commentFindings cs ++ [synErrFinding e],
       credFindings cs ++ sqlFindings cs, []⟩ ∧
    ((analyzeRun parse cs).general ++ (analyzeRun parse cs).security ++
        (analyzeRun parse cs).performance).countP
      (fun f => f.ftype == "syntax_error") = 1 := by
  have h1 : analyzeRun parse cs =
      ⟨commentFindings cs ++ [synErrFinding e],
       credFindings cs ++ sqlFindings cs, []⟩ := by
    unfold analyzeRun analyzeGeneral analyzeSecurity analyzePerformance
    rw [h]
  refine ⟨h1, ?_⟩
  rw [h1]
  have hc : (commentFindings cs).countP (fun f => f.ftype == "syntax_error") = 0 := by
    rw [List.countP_eq_zero]
    intro f hf
    obtain ⟨p, hp, rfl⟩ := mem_commentFindings hf
    simp
  have hcr : (credFindings cs).countP (fun f => f.ftype == "syntax_error") = 0 := by
    rw [List.countP_eq_zero]
    intro f hf
    obtain ⟨p, hp, rfl⟩ := mem_credFindings hf
    simp
  have hsq : (sqlFindings cs).countP (fun f => f.ftype == "syntax_error") = 0 := by
    rw [List.countP_eq_zero]
    intro f hf
    obtain ⟨p, hp, rfl⟩ := mem_sqlFindings hf
    simp
  have hsyn : ([synErrFinding e]).countP (fun f => f.ftype == "syntax_error") = 1 := by
    simp [synErrFinding]
  simp only [List.countP_append, List.append_nil]
  omega

theorem syntax_error_recovery_witness :
    analyzeRun c5Parse c5Input =
      ⟨commentFindings c5Input ++ [synErrFinding ⟨"invalid syntax", 2⟩],
       credFindings c5Input ++ sqlFindings c5Input, []⟩ ∧
    ((analyzeRun c5Parse c5Input).general ++ (analyzeRun c5Parse c5Input).security ++
        (analyzeRun c5Parse c5Input).performance).countP
      (fun f => f.ftype == "syntax_error") = 1 :=
  syntax_error_recovery c5Parse c5Input ⟨"invalid syntax", 2⟩ rfl

/-- C6 counterexample: a provider that finds the template but returns the
empty string does not signal not-found, yet render returns the fixed
fallback instead of the template text with the header — the code tests
falsiness of the template, not the not-found signal. -/
theorem render_missing_template_cex :
    generate_review (fun _ => some "") emptyIssues "general" = "No template found" ∧
    (fun _ => (some "" : Option String)) "general" ≠ none ∧
    generate_review (fun _ => some "") emptyIssues "general" ≠
      "" ++ "\n\n## Issues Found\n\n" ++ "No issues found for this category.\n" := by
  refine ⟨by decide, by simp, by decide⟩

/-- C6 amended: when the provider signals not-found OR returns empty
template text, render returns exactly the fixed fallback string; when the
template text is non-empty, render returns the template text, the Issues
Found header, and either one formatted line per finding of the requested
bucket or the fixed empty-category line; no case is an error. -/
theorem render_missing_template_amended (provider : String → Option String)
    (i : Issues) (t : String) :
    (provider t = none → generate_review provider i t = "No template found") ∧
    (provider t = some "" → generate_review provider i t = "No template found") ∧
    (∀ s, provider t = some s → s ≠ "" →
      ((lookupIssues i t = none ∨ lookupIssues i t = some []) →
        generate_review provider i t =
          s ++ "\n\n## Issues Found\n\n" ++ "No issues found for this category.\n") ∧
      (∀ fs, lookupIssues i t = some fs → fs ≠ [] →
        generate_review provider i t =
          s ++ "\n\n## Issues Found\n\n" ++ String.join (fs.map fmtLine))) := by
  refine ⟨?_, ?_, ?_⟩
  · intro h
    simp [generate_review, load_template, h]
  · intro h
    simp [generate_review, load_template, h]
  · intro s hp hs
    have hlt : load_template provider t = s := by simp [load_template, hp]
    constructor
    · intro hcase
      rcases hcase with hnone | hnil
      · simp [generate_review, hlt, hs, hnone]
      · simp [generate_review, hlt, hs, hnil]
    · intro fs hfs hne
      rw [join_map_fmt]
      simp only [generate_review, hlt]
      rw [if_neg hs, hfs]
      simp only [List.isEmpty_iff]
      rw [if_neg hne]
      exact foldl_fmt_hoist fs _

theorem render_missing_template_witness :
    generate_review (fun _ => none) emptyIssues "general" = "No template found" :=
  (render_missing_template_amended (fun _ => none) emptyIssues "general").1 rfl

/-- C7: every pattern-detector finding records as line one plus the
number of newlines preceding the match start (a position of the
respective scanner), and under the assumption that the parse oracle
reports line metadata consistent with the newline count, tree-based
findings satisfy the same characterization. -/
theorem finding_line_numbers (cs : List Char) (body : List PyNode) (f : Finding)
    (hmeta : ∀ n ∈ walkAll body, ∃ p, p ≤ cs.length ∧
      PyNode.lineno n = countNL (cs.take p) + 1)
    (hf : f ∈ commentFindings cs ∨ f ∈ credFindings cs ∨ f ∈ sqlFindings cs ∨
      f ∈ namingFindings body ∨ f ∈ nestedFindings body) :
    ∃ p, p ≤ cs.length ∧ f.line = countNL (cs.take p) + 1 ∧
      (f ∈ commentFindings cs → p ∈ commentPositions cs) ∧
      (f ∈ credFindings cs → p ∈ credPositions cs) ∧
      (f ∈ sqlFindings cs → p ∈ sqlPositions cs) := by
  rcases hf with hf | hf | hf | hf | hf
  · obtain ⟨p, hp, rfl⟩ := mem_commentFindings hf
    have hbound := (commentPositions_sound hp).1
    refine ⟨p, by omega, rfl, fun _ => hp, ?_, ?_⟩
    · intro hcred
      obtain ⟨p2, hp2, heq⟩ := mem_credFindings hcred
      simp at heq
    · intro hsql
      obtain ⟨p2, hp2, heq⟩ := mem_sqlFindings hsql
      simp at heq
  · obtain ⟨p, hp, rfl⟩ := mem_credFindings hf
    have hbound := (credPositions_sound hp).1
    refine ⟨p, by omega, rfl, ?_, fun _ => hp, ?_⟩
    · intro hcom
      obtain ⟨p2, hp2, heq⟩ := mem_commentFindings hcom
      simp at heq
    · intro hsql
      obtain ⟨p2, hp2, heq⟩ := mem_sqlFindings hsql
      simp at heq
  · obtain ⟨p, hp, rfl⟩ := mem_sqlFindings hf
    have hbound := (sqlPositions_sound hp).1
    refine ⟨p, by omega, rfl, ?_, ?_, fun _ => hp⟩
    · intro hcom
      obtain ⟨p2, hp2, heq⟩ := mem_commentFindings hcom
      simp at heq
    · intro hcred
      obtain ⟨p2, hp2, heq⟩ := mem_credFindings hcred
      simp at heq
  · obtain ⟨hft, hsev, n, hn, hline⟩ := mem_namingFindings hf
    obtain ⟨p, hple, hlineno⟩ := hmeta n hn
    refine ⟨p, hple, by rw [hline, hlineno], ?_, ?_, ?_⟩
    · intro hcom
      obtain ⟨p2, hp2, heq⟩ := mem_commentFindings hcom
      rw [heq] at hft
      simp at hft
    · intro hcred
      obtain ⟨p2, hp2, heq⟩ := mem_credFindings hcred
      rw [heq] at hft
      simp at hft
    · intro hsql
      obtain ⟨p2, hp2, heq⟩ := mem_sqlFindings hsql
      rw [heq] at hft
      simp at hft
  · obtain ⟨hft, hsev, n, hn, hline⟩ := mem_nestedFindings hf
    obtain ⟨p, hple, hlineno⟩ := hmeta n hn
    refine ⟨p, hple, by rw [hline, hlineno], ?_, ?_, ?_⟩
    · intro hcom
      obtain ⟨p2, hp2, heq⟩ := mem_commentFindings hcom
      rw [heq] at hft
      simp at hft
    · intro hcred
      obtain ⟨p2, hp2, heq⟩ := mem_credFindings hcred
      rw [heq] at hft
      simp at hft
    · intro hsql
      obtain ⟨p2, hp2, heq⟩ := mem_sqlFindings hsql
      rw [heq] at hft
      simp at hft

theorem finding_line_numbers_witness :
    ∃ p, p ≤ commentWitnessInput.length ∧
      commentWitnessFinding.line = countNL (commentWitnessInput.take p) + 1 ∧
      (commentWitnessFinding ∈ commentFindings commentWitnessInput →
        p ∈ commentPositions commentWitnessInput) ∧
      (commentWitnessFinding ∈ credFindings commentWitnessInput →
        p ∈ credPositions commentWitnessInput) ∧
      (commentWitnessFinding ∈ sqlFindings commentWitnessInput →
        p ∈ sqlPositions commentWitnessInput) :=
  finding_line_numbers commentWitnessInput lineWitnessBody commentWitnessFinding
    (by
      intro n hn
      have hw : walkAll lineWitnessBody = [PyNode.forNode 1 []] := rfl
      rw [hw] at hn
      simp only [List.mem_singleton] at hn
      subst hn
      exact ⟨0, by simp, by decide⟩)
    (Or.inl (by decide))

/-- C8: on a successful read the result of analyze_file does not depend
on the instance state left by earlier calls, and equals the pure
analyzeRun of the text — so two runs on identical input produce identical
results. -/
theorem analyze_deterministic (parse : PyParse) (cs : List Char) (s1 s2 : Issues) :
    analyze_file parse (some cs) s1 = analyze_file parse (some cs) s2 ∧
    (analyze_file parse (some cs) s1).1 = analyzeRun parse cs :=
  ⟨rfl, rfl⟩

/-- C9: generate_review never assigns into the issues mapping: the
state-threaded rendering returns the issues argument unchanged, and its
rendered string agrees with generate_review. -/
theorem render_no_mutation (provider : String → Option String) (i : Issues)
    (t : String) :
    (generate_review_frame provider i t).2 = i ∧
    (generate_review_frame provider i t).1 = generate_review provider i t := by
  by_cases h : load_template provider t = ""
  · constructor <;> simp [generate_review_frame, generate_review, h]
  · cases hli : lookupIssues i t with
    | none => constructor <;> simp [generate_review_frame, generate_review, h, hli]
    | some fs =>
      by_cases hfe : fs.isEmpty
      · constructor <;> simp [generate_review_frame, generate_review, h, hli, hfe]
      · constructor <;> simp [generate_review_frame, generate_review, h, hli, hfe]

/-- C10: the credentials pattern requires at least one character between
the quotes: assigning an empty quoted string to any of the seven
credential identifiers produces no finding, and in general every
successful match decomposes with a non-empty literal content. -/
theorem empty_quoted_literal_not_flagged :
    (credFindings (("password = \x22\x22").data) = [] ∧
     credFindings (("password = \x27\x27").data) = [] ∧
     credFindings (("passwd = \x22\x22").data) = [] ∧
     credFindings (("passwd = \x27\x27").data) = [] ∧
     credFindings (("pwd = \x22\x22").data) = [] ∧
     credFindings (("pwd = \x27\x27").data) = [] ∧
     credFindings (("secret = \x22\x22").data) = [] ∧
     credFindings (("secret = \x27\x27").data) = [] ∧
     credFindings (("key = \x22\x22").data) = [] ∧
     credFindings (("key = \x27\x27").data) = [] ∧
     credFindings (("token = \x22\x22").data) = [] ∧
     credFindings (("token = \x27\x27").data) = [] ∧
     credFindings (("auth = \x22\x22").data) = [] ∧
     credFindings (("auth = \x27\x27").data) = []) ∧
    ∀ (cs : List Char) (len : Nat), tryCred cs = some len → CredHere cs :=
  ⟨by decide, fun _ _ h => tryCred_sound h⟩

theorem empty_quoted_literal_not_flagged_witness :
    CredHere (("key = \x221\x22").data) :=
  empty_quoted_literal_not_flagged.2 (("key = \x221\x22").data) 9 (by decide)

end CodeReview
